import Mathlib

/-!
Shallow embedding of `src/storage/sqlite_history.py` (class `SQLiteDialogHistory`),
the SQLite-backed conversation history store.

Modelling conventions:
* The four tables (`users`, `messages`, `banned_users`, `notification_admins`) are
  lists of row structures.  `messages` is kept in insertion order; since ids are
  assigned from the strictly increasing `AUTOINCREMENT` counter `next_id` and rows
  are only ever appended or filtered out, the list is in ascending-id order in
  every reachable state (proved as an invariant below), so `ORDER BY id ASC`
  coincides with the list order there.
* SQLite timestamps are ISO-8601 text produced by `datetime('now')` and compare
  as strings; we model them as (day, second-of-day) pairs with lexicographic
  order.  `date('now')` is the current day; the comparison
  `created_at >= date('now')` in `get_stats` holds exactly when the row's day is
  `≥` the current day, because the datetime string strictly extends the date
  string prefix.
* `role` is constrained to `user`/`assistant` both by the SQL `CHECK` and by the
  `@beartype`-checked `Literal` annotation, so it is an inductive type here.
* The schema declares `FOREIGN KEY (user_id) REFERENCES users(user_id)`, but
  `init()` never executes `PRAGMA foreign_keys = ON`, and SQLite leaves foreign
  keys unenforced by default: as executed, an insert referencing an unknown
  `user_id` succeeds.  The embedding reproduces that executed behaviour.
* Each SQL statement is executed atomically and statements on the single shared
  `aiosqlite` connection are serialised; a concurrent schedule of `add_message`
  calls is therefore modelled as an interleaving of the per-call atomic
  statement pairs (INSERT then the self-contained trimming DELETE).
-/

namespace SQLiteHistory

/-- A `datetime('now')` value: (day, second-of-day), ordered lexicographically,
matching ISO-8601 string comparison. -/
structure Timestamp where
  day : Nat
  sec : Nat
deriving DecidableEq

/-- Lexicographic order on timestamps (ISO string order). -/
def Timestamp.le (a b : Timestamp) : Prop :=
  a.day < b.day ∨ (a.day = b.day ∧ a.sec ≤ b.sec)

instance (a b : Timestamp) : Decidable (Timestamp.le a b) := by
  unfold Timestamp.le; infer_instance

/-- `role TEXT NOT NULL CHECK(role IN ('user', 'assistant'))`, also enforced by
the `Literal["user", "assistant"]` annotation under `@beartype`. -/
inductive Role where
  | user
  | assistant
deriving DecidableEq

/-- A row of the `users` table. -/
structure UserRow where
  user_id : Int
  username : Option String
  first_seen : Timestamp
  last_seen : Timestamp
deriving DecidableEq

/-- A row of the `messages` table. -/
structure MsgRow where
  id : Nat
  user_id : Int
  role : Role
  content : String
  created_at : Timestamp
deriving DecidableEq

/-- A row of the `banned_users` table. -/
structure BanRow where
  user_id : Int
  banned_at : Timestamp
deriving DecidableEq

/-- A row of the `notification_admins` table. -/
structure AdminRow where
  user_id : Int
  added_at : Timestamp
deriving DecidableEq

/-- The database state owned by `SQLiteDialogHistory`: the four tables, the
`AUTOINCREMENT` counter for `messages.id`, and the configured window size
`max_messages` (constructor default 20). -/
structure Store where
  users : List UserRow
  messages : List MsgRow
  next_id : Nat
  banned : List BanRow
  admins : List AdminRow
  max_messages : Nat
deriving DecidableEq

/-- The store right after `init()` ran `CREATE_TABLES_SQL` on a fresh database:
all tables empty, `AUTOINCREMENT` starting at 1. -/
def emptyStore (maxMessages : Nat) : Store :=
  { users := [], messages := [], next_id := 1, banned := [], admins := [],
    max_messages := maxMessages }

/-- `upsert_user`: `INSERT ... ON CONFLICT(user_id) DO UPDATE SET
username = COALESCE(excluded.username, users.username), last_seen = datetime('now')`.
`COALESCE` keeps the old username exactly when the incoming value is SQL `NULL`
(Python `None`); any non-`NULL` incoming value, including the empty string,
overwrites. -/
def upsert_user (s : Store) (now : Timestamp) (uid : Int)
    (username : Option String) : Store :=
  if s.users.any (fun u => u.user_id = uid) then
    { s with users := s.users.map fun u =>
        if u.user_id = uid then
          { u with
            username := match username with
              | some v => some v
              | none => u.username,
            last_seen := now }
        else u }
  else
    { s with users := s.users ++
        [{ user_id := uid, username := username, first_seen := now,
           last_seen := now }] }

/-- The `INSERT INTO messages (user_id, role, content) VALUES (?, ?, ?)`
statement of `add_message`: appends a row with the next `AUTOINCREMENT` id and
`created_at = datetime('now')`.  No foreign-key check runs (the pragma is never
enabled), so the insert succeeds whether or not a `users` row exists. -/
def insertMessage (s : Store) (now : Timestamp) (uid : Int) (role : Role)
    (content : String) : Store :=
  { s with
    messages := s.messages ++
      [{ id := s.next_id, user_id := uid, role := role, content := content,
         created_at := now }],
    next_id := s.next_id + 1 }

/-- The trimming `DELETE` of `add_message`:
`DELETE FROM messages WHERE user_id = ? AND id NOT IN
 (SELECT id FROM messages WHERE user_id = ? ORDER BY id DESC LIMIT ?)`.
A row of `uid` survives exactly when it is among the `max_messages` largest ids
of that user, i.e. when fewer than `max_messages` rows of that user have a
larger id. -/
def trimUser (s : Store) (uid : Int) : Store :=
  { s with messages := s.messages.filter fun m =>
      m.user_id ≠ uid ∨
        (s.messages.filter fun k =>
          k.user_id = uid ∧ m.id < k.id).length < s.max_messages }

/-- `add_message`: the INSERT followed by the trimming DELETE (the two
statements of the method body, executed in order). -/
def add_message (s : Store) (now : Timestamp) (uid : Int) (role : Role)
    (content : String) : Store :=
  trimUser (insertMessage s now uid role content) uid

/-- The rows of the `messages` table belonging to one user (in table order,
which is ascending-id order in reachable states). -/
def msgsOf (s : Store) (uid : Int) : List MsgRow :=
  s.messages.filter fun m => m.user_id = uid

/-- `get_history`: `SELECT role, content FROM messages WHERE user_id = ?
ORDER BY id ASC`, each row rendered as a `{role, content}` pair. -/
def get_history (s : Store) (uid : Int) : List (Role × String) :=
  (msgsOf s uid).map fun m => (m.role, m.content)

/-- `clear`: `DELETE FROM messages WHERE user_id = ?`. -/
def clear (s : Store) (uid : Int) : Store :=
  { s with messages := s.messages.filter fun m => m.user_id ≠ uid }

/-- `get_message_count`: `SELECT COUNT(*) FROM messages WHERE user_id = ?`. -/
def get_message_count (s : Store) (uid : Int) : Nat :=
  (msgsOf s uid).length

/-- `get_all_user_ids`: `SELECT user_id FROM users`. -/
def get_all_user_ids (s : Store) : List Int :=
  s.users.map fun u => u.user_id

/-- Result record of `get_stats`. -/
structure Stats where
  total_users : Nat
  total_messages : Nat
  user_messages : Nat
  active_today : Nat
deriving DecidableEq

/-- `get_stats`: four aggregate `COUNT` queries.  `active_today` is
`COUNT(DISTINCT user_id) FROM messages WHERE created_at >= date('now')`; by the
string-comparison convention described above the `WHERE` clause holds exactly
when the row's day is `≥ today`. -/
def get_stats (s : Store) (today : Nat) : Stats :=
  { total_users := s.users.length,
    total_messages := s.messages.length,
    user_messages := (s.messages.filter fun m => m.role = Role.user).length,
    active_today :=
      ((s.messages.filter fun m => today ≤ m.created_at.day).map
        fun m => m.user_id).dedup.length }

/-- `ban_user`: `INSERT OR IGNORE INTO banned_users (user_id) VALUES (?)`. -/
def ban_user (s : Store) (now : Timestamp) (uid : Int) : Store :=
  if s.banned.any (fun b => b.user_id = uid) then s
  else { s with banned := s.banned ++ [{ user_id := uid, banned_at := now }] }

/-- `unban_user`: `DELETE FROM banned_users WHERE user_id = ?`. -/
def unban_user (s : Store) (uid : Int) : Store :=
  { s with banned := s.banned.filter fun b => b.user_id ≠ uid }

/-- `is_banned`: `SELECT 1 FROM banned_users WHERE user_id = ?` nonempty. -/
def is_banned (s : Store) (uid : Int) : Bool :=
  s.banned.any fun b => b.user_id = uid

/-- `add_notification_admin`:
`INSERT OR IGNORE INTO notification_admins (user_id) VALUES (?)`. -/
def add_notification_admin (s : Store) (now : Timestamp) (uid : Int) : Store :=
  if s.admins.any (fun a => a.user_id = uid) then s
  else { s with admins := s.admins ++ [{ user_id := uid, added_at := now }] }

/-- `remove_notification_admin`:
`DELETE FROM notification_admins WHERE user_id = ?`. -/
def remove_notification_admin (s : Store) (uid : Int) : Store :=
  { s with admins := s.admins.filter fun a => a.user_id ≠ uid }

/-- `get_notification_admin_ids`: `SELECT user_id FROM notification_admins`. -/
def get_notification_admin_ids (s : Store) : List Int :=
  s.admins.map fun a => a.user_id

/-- One entry of the `get_all_users` result. -/
structure UserInfo where
  user_id : Int
  username : Option String
  first_seen : Timestamp
  last_seen : Timestamp
  msg_count : Nat
  is_banned : Bool
deriving DecidableEq

/-- The relation `ORDER BY u.last_seen DESC` sorts by. -/
def lastSeenGe (a b : UserRow) : Prop :=
  Timestamp.le b.last_seen a.last_seen

instance (a b : UserRow) : Decidable (lastSeenGe a b) := by
  unfold lastSeenGe; infer_instance

/-- `get_all_users`: one row per user with the two correlated subqueries
(live count of `role = 'user'` messages, ban flag), `ORDER BY last_seen DESC`. -/
def get_all_users (s : Store) : List UserInfo :=
  (s.users.insertionSort lastSeenGe).map fun u =>
    { user_id := u.user_id,
      username := u.username,
      first_seen := u.first_seen,
      last_seen := u.last_seen,
      msg_count := (s.messages.filter fun m =>
        m.user_id = u.user_id ∧ m.role = Role.user).length,
      is_banned := s.banned.any fun b => b.user_id = u.user_id }

/-- Rendering of a timestamp inside the export report (the SQL text is carried
through verbatim by the Python code; any injective rendering models it). -/
def Timestamp.render (t : Timestamp) : String :=
  toString t.day ++ ":" ++ toString t.sec

/-- One per-user line of `export_data` (the f-string in the `for u in users`
loop).  `u['username'] or '—'` renders the placeholder for every falsy
username, i.e. for SQL `NULL` (Python `None`) and for the empty string. -/
def exportUserLine (u : UserInfo) : String :=
  "ID: " ++ toString u.user_id ++ " | @" ++
    (match u.username with
      | some v => if v = "" then "—" else v
      | none => "—") ++
    " | Сообщений: " ++ toString u.msg_count ++
    " | Первый визит: " ++ u.first_seen.render ++
    " | Последний: " ++ u.last_seen.render ++
    (if u.is_banned then " [BANNED]" else "")

/-- The `lines` list built by `export_data` before `"\n".join(lines)`. -/
def exportLines (s : Store) (today : Nat) : List String :=
  ["=== Экспорт данных бота 17/17 ===\n"] ++
  ["Всего пользователей: " ++ toString (get_all_users s).length ++ "\n"] ++
  (get_all_users s).map exportUserLine ++
  ["\n--- Общая статистика ---",
   "Сообщений всего: " ++ toString (get_stats s today).total_messages,
   "От пользователей: " ++ toString (get_stats s today).user_messages,
   "Активных сегодня: " ++ toString (get_stats s today).active_today]

/-- `export_data`: `"\n".join(lines)`. -/
def export_data (s : Store) (today : Nat) : String :=
  String.intercalate "\n" (exportLines s today)

/-- The last `n` elements of a list (for an ascending-id message list: the `n`
rows with the largest ids, which is what `ORDER BY id DESC LIMIT n` selects). -/
def takeLast (n : Nat) (l : List α) : List α := l.drop (l.length - n)

/-- The trimming DELETE restricted to one user's rows, as a pure list
operation: keep a row iff fewer than `maxM` rows have a larger id. -/
def trimList (l : List MsgRow) (maxM : Nat) : List MsgRow :=
  l.filter fun m => (l.filter fun k => m.id < k.id).length < maxM

/-- The arguments of one completed `add_message` call. -/
structure AddCall where
  now : Timestamp
  uid : Int
  role : Role
  content : String

/-- Run a sequence of completed `add_message` calls. -/
def runAdds (s : Store) (calls : List AddCall) : Store :=
  calls.foldl (fun t c => add_message t c.now c.uid c.role c.content) s

/-- The message rows a call sequence inserts, with the ids the
`AUTOINCREMENT` counter assigns starting from `nid`. -/
def addedRows (nid : Nat) : List AddCall → List MsgRow
  | [] => []
  | c :: cs =>
      { id := nid, user_id := c.uid, role := c.role, content := c.content,
        created_at := c.now } :: addedRows (nid + 1) cs

/-- One mutating store operation (the public mutating API of
`SQLiteDialogHistory`). -/
inductive Op where
  | upsert (now : Timestamp) (uid : Int) (username : Option String)
  | add (now : Timestamp) (uid : Int) (role : Role) (content : String)
  | clearAll (uid : Int)
  | ban (now : Timestamp) (uid : Int)
  | unban (uid : Int)
  | addAdmin (now : Timestamp) (uid : Int)
  | removeAdmin (uid : Int)

/-- Interpret one operation. -/
def applyOp (s : Store) : Op → Store
  | .upsert now uid un => upsert_user s now uid un
  | .add now uid r c => add_message s now uid r c
  | .clearAll uid => clear s uid
  | .ban now uid => ban_user s now uid
  | .unban uid => unban_user s uid
  | .addAdmin now uid => add_notification_admin s now uid
  | .removeAdmin uid => remove_notification_admin s uid

/-- Run a trace of operations; the states reachable from `emptyStore` are the
states `runOps (emptyStore maxM) ops`. -/
def runOps (s : Store) (ops : List Op) : Store := ops.foldl applyOp s

/-- One atomic SQL statement of `add_message` (statements on the single shared
connection are serialised, so these are the atomic units of a concurrent
schedule). -/
inductive Stmt where
  | ins (now : Timestamp) (uid : Int) (role : Role) (content : String)
  | trim (uid : Int)

/-- The user a statement targets. -/
def Stmt.uid : Stmt → Int
  | .ins _ u _ _ => u
  | .trim u => u

/-- Execute one atomic statement. -/
def execStmt (s : Store) : Stmt → Store
  | .ins now uid role content => insertMessage s now uid role content
  | .trim uid => trimUser s uid

/-- Execute a schedule of atomic statements. -/
def runStmts (s : Store) (σ : List Stmt) : Store := σ.foldl execStmt s

/-- Number of INSERT statements in a schedule. -/
def insCount : List Stmt → Nat
  | [] => 0
  | .ins _ _ _ _ :: rest => insCount rest + 1
  | .trim _ :: rest => insCount rest

/-- Number of trimming DELETE statements in a schedule. -/
def trimCount : List Stmt → Nat
  | [] => 0
  | .ins _ _ _ _ :: rest => trimCount rest
  | .trim _ :: rest => trimCount rest + 1

/-- The rows the INSERT statements of a schedule append, with the ids the
`AUTOINCREMENT` counter assigns starting from `nid`. -/
def insRows (nid : Nat) : List Stmt → List MsgRow
  | [] => []
  | .ins now uid role content :: rest =>
      { id := nid, user_id := uid, role := role, content := content,
        created_at := now } :: insRows (nid + 1) rest
  | .trim _ :: rest => insRows nid rest

/-- A schedule is an interleaving of complete `add_message` calls for user `u`:
every statement targets `u`, INSERTs and DELETEs pair up, and in every prefix
each DELETE is preceded by its call's INSERT.  Exactly the statement sequences
obtainable by interleaving `n` copies of `[ins, trim]`. -/
def ValidInterleaving (u : Int) (σ : List Stmt) : Prop :=
  (∀ st ∈ σ, st.uid = u) ∧ trimCount σ = insCount σ ∧
    ∀ k, k ≤ σ.length → trimCount (σ.take k) ≤ insCount (σ.take k)

/-- Representation invariant of every reachable store state: the `messages`
list is in strictly ascending id order and all ids are below the
`AUTOINCREMENT` counter. -/
def StoreWF (s : Store) : Prop :=
  s.messages.Pairwise (fun a b => a.id < b.id) ∧
    ∀ m ∈ s.messages, m.id < s.next_id

instance (u : Int) (σ : List Stmt) : Decidable (ValidInterleaving u σ) := by
  unfold ValidInterleaving; infer_instance

instance (s : Store) : Decidable (StoreWF s) := by
  unfold StoreWF; infer_instance

instance : IsTotal UserRow lastSeenGe := by
  constructor; intro a b
  unfold lastSeenGe Timestamp.le
  omega

instance : IsTrans UserRow lastSeenGe := by
  constructor; intro a b c hab hbc
  unfold lastSeenGe Timestamp.le at *
  omega

theorem takeLast_length (n : Nat) (l : List α) :
    (takeLast n l).length = min n l.length := by
  simp [takeLast]; omega

theorem takeLast_suffix (n : Nat) (l : List α) : takeLast n l <:+ l :=
  List.drop_suffix _ _

theorem takeLast_nil (n : Nat) : takeLast n ([] : List α) = [] := by
  simp [takeLast]

theorem takeLast_eq_of_suffix {s l : List α} (n : Nat) (h : s <:+ l)
    (hlen : min n l.length ≤ s.length) : takeLast n s = takeLast n l := by
  obtain ⟨t, rfl⟩ := h
  unfold takeLast
  rcases le_or_lt n s.length with h1 | h1
  · have h2 : t.length + s.length - n = t.length + (s.length - n) := by omega
    rw [List.length_append, h2, List.drop_append]
  · have h2 : t.length = 0 := by
      rw [List.length_append] at hlen
      omega
    have h3 : t = [] := List.length_eq_zero.mp h2
    subst h3
    simp

theorem suffix_append_right {s l : List α} (h : s <:+ l) (t : List α) :
    s ++ t <:+ l ++ t := by
  obtain ⟨w, rfl⟩ := h
  exact ⟨w, (List.append_assoc w s t).symm⟩

theorem msgsOf_insert_same (s : Store) (now : Timestamp) (u : Int) (r : Role)
    (c : String) :
    msgsOf (insertMessage s now u r c) u =
      msgsOf s u ++
        [{ id := s.next_id, user_id := u, role := r, content := c,
           created_at := now }] := by
  simp [msgsOf, insertMessage, List.filter_append]

theorem msgsOf_insert_other (s : Store) (now : Timestamp) {u v : Int}
    (r : Role) (c : String) (h : v ≠ u) :
    msgsOf (insertMessage s now u r c) v = msgsOf s v := by
  simp [msgsOf, insertMessage, List.filter_append, Ne.symm h]

theorem msgsOf_trim_same (s : Store) (u : Int) :
    msgsOf (trimUser s u) u = trimList (msgsOf s u) s.max_messages := by
  unfold msgsOf trimUser trimList
  simp only [List.filter_filter]
  apply List.filter_congr
  intro m _
  by_cases hm : m.user_id = u
  · have hinner :
        List.filter (fun k => decide (k.user_id = u) && decide (m.id < k.id))
            s.messages
          = List.filter (fun k => decide (m.id < k.id) && decide (k.user_id = u))
              s.messages :=
      List.filter_congr fun k _ => Bool.and_comm _ _
    simp [hm, hinner]
  · simp [hm]

theorem msgsOf_trim_other (s : Store) {u v : Int} (h : v ≠ u) :
    msgsOf (trimUser s u) v = msgsOf s v := by
  unfold msgsOf trimUser
  simp only [List.filter_filter]
  apply List.filter_congr
  intro m _
  by_cases hm : m.user_id = v
  · simp [hm]
    exact Or.inl h
  · simp [hm]

theorem msgsOf_clear_same (s : Store) (u : Int) : msgsOf (clear s u) u = [] := by
  unfold msgsOf clear
  simp only [List.filter_filter]
  rw [List.filter_eq_nil_iff]
  intro m _
  by_cases hm : m.user_id = u <;> simp [hm]

theorem msgsOf_clear_other (s : Store) {u v : Int} (h : v ≠ u) :
    msgsOf (clear s u) v = msgsOf s v := by
  unfold msgsOf clear
  simp only [List.filter_filter]
  apply List.filter_congr
  intro m _
  by_cases hm : m.user_id = v
  · simp [hm]
    exact h
  · simp [hm]

theorem takeLast_of_le {l : List α} {n : Nat} (h : l.length ≤ n) :
    takeLast n l = l := by
  unfold takeLast
  have h0 : l.length - n = 0 := by omega
  rw [h0, List.drop_zero]

theorem trimList_eq_takeLast {l : List MsgRow} (maxM : Nat)
    (h : l.Pairwise fun a b => a.id < b.id) :
    trimList l maxM = takeLast maxM l := by
  induction l with
  | nil => simp [trimList, takeLast]
  | cons x xs ih =>
    obtain ⟨hx, hxs⟩ := List.pairwise_cons.mp h
    have hxfilter : xs.filter (fun k => decide (x.id < k.id)) = xs :=
      List.filter_eq_self.mpr fun k hk => by simp [hx k hk]
    have hinnerx : (x :: xs).filter (fun k => decide (x.id < k.id)) = xs := by
      rw [List.filter_cons]
      simp [hxfilter]
    unfold trimList
    rw [List.filter_cons, hinnerx]
    have htail :
        xs.filter (fun m =>
            decide (((x :: xs).filter fun k =>
              decide (m.id < k.id)).length < maxM))
          = xs.filter (fun m =>
              decide ((xs.filter fun k =>
                decide (m.id < k.id)).length < maxM)) := by
      apply List.filter_congr
      intro m hm
      have hxm : ¬m.id < x.id := by have := hx m hm; omega
      rw [List.filter_cons]
      simp [hxm]
    by_cases hlt : xs.length < maxM
    · simp only [hlt, decide_True, if_pos]
      rw [htail]
      have h1 : trimList xs maxM = takeLast maxM xs := ih hxs
      unfold trimList at h1
      rw [h1, takeLast_of_le (by omega), takeLast_of_le (by simp; omega)]
    · simp only [hlt, decide_False, if_neg Bool.false_ne_true]
      rw [htail]
      have h1 : trimList xs maxM = takeLast maxM xs := ih hxs
      unfold trimList at h1
      rw [h1]
      unfold takeLast
      have h2 : (x :: xs).length - maxM = (xs.length - maxM) + 1 := by
        simp; omega
      rw [h2, List.drop_succ_cons]

theorem StoreWF_insert {s : Store} (h : StoreWF s) (now : Timestamp) (u : Int)
    (r : Role) (c : String) : StoreWF (insertMessage s now u r c) := by
  obtain ⟨hp, hb⟩ := h
  constructor
  · show (s.messages ++ [_]).Pairwise _
    rw [List.pairwise_append]
    refine ⟨hp, List.pairwise_singleton _ _, ?_⟩
    intro a ha b hb2
    rw [List.mem_singleton] at hb2
    subst hb2
    exact hb a ha
  · intro m hm
    show m.id < s.next_id + 1
    simp only [insertMessage, List.mem_append, List.mem_singleton] at hm
    rcases hm with hm | hm
    · have := hb m hm; omega
    · subst hm; simp

theorem StoreWF_trim {s : Store} (h : StoreWF s) (u : Int) :
    StoreWF (trimUser s u) :=
  ⟨List.Pairwise.sublist (List.filter_sublist _) h.1,
   fun m hm => h.2 m (List.mem_of_mem_filter hm)⟩

theorem StoreWF_clear {s : Store} (h : StoreWF s) (u : Int) :
    StoreWF (clear s u) :=
  ⟨List.Pairwise.sublist (List.filter_sublist _) h.1,
   fun m hm => h.2 m (List.mem_of_mem_filter hm)⟩

theorem msgsOf_pairwise {s : Store} (h : StoreWF s) (v : Int) :
    (msgsOf s v).Pairwise fun a b => a.id < b.id :=
  List.Pairwise.sublist (List.filter_sublist _) h.1

theorem takeLast_append_singleton (n : Nat) (l : List α) (x : α) :
    takeLast n (takeLast n l ++ [x]) = takeLast n (l ++ [x]) := by
  apply takeLast_eq_of_suffix n (suffix_append_right (takeLast_suffix n l) [x])
  rw [List.length_append, List.length_append, takeLast_length]
  simp
  omega

theorem addedRows_append (nid : Nat) (xs ys : List AddCall) :
    addedRows nid (xs ++ ys) = addedRows nid xs ++ addedRows (nid + xs.length) ys := by
  induction xs generalizing nid with
  | nil => simp [addedRows]
  | cons c cs ih =>
      have harith : nid + (cs.length + 1) = nid + 1 + cs.length := by omega
      simp only [List.cons_append, addedRows, List.append_eq, ih,
        List.length_cons, harith]

theorem add_message_next_id (s : Store) (now : Timestamp) (u : Int) (r : Role)
    (c : String) : (add_message s now u r c).next_id = s.next_id + 1 := rfl

theorem add_message_max (s : Store) (now : Timestamp) (u : Int) (r : Role)
    (c : String) : (add_message s now u r c).max_messages = s.max_messages := rfl

theorem StoreWF_add {s : Store} (h : StoreWF s) (now : Timestamp) (u : Int)
    (r : Role) (c : String) : StoreWF (add_message s now u r c) :=
  StoreWF_trim (StoreWF_insert h now u r c) u

theorem StoreWF_empty (maxM : Nat) : StoreWF (emptyStore maxM) := by
  constructor
  · exact List.Pairwise.nil
  · intro m hm
    simp [emptyStore] at hm

theorem runAdds_window (maxM : Nat) (calls : List AddCall) :
    StoreWF (runAdds (emptyStore maxM) calls) ∧
    (runAdds (emptyStore maxM) calls).next_id = 1 + calls.length ∧
    (runAdds (emptyStore maxM) calls).max_messages = maxM ∧
    ∀ v, msgsOf (runAdds (emptyStore maxM) calls) v
      = takeLast maxM ((addedRows 1 calls).filter fun m => m.user_id = v) := by
  induction calls using List.reverseRecOn with
  | nil =>
      refine ⟨StoreWF_empty maxM, rfl, rfl, ?_⟩
      intro v
      simp [runAdds, emptyStore, msgsOf, addedRows, takeLast]
  | append_singleton cs c ih =>
      obtain ⟨hwf, hnid, hmax, hmsgs⟩ := ih
      have hrun : runAdds (emptyStore maxM) (cs ++ [c])
          = add_message (runAdds (emptyStore maxM) cs) c.now c.uid c.role
              c.content := by
        simp [runAdds, List.foldl_append]
      refine ⟨?_, ?_, ?_, ?_⟩
      · rw [hrun]; exact StoreWF_add hwf _ _ _ _
      · rw [hrun, add_message_next_id, hnid]
        simp
        omega
      · rw [hrun, add_message_max, hmax]
      · intro v
        rw [hrun, addedRows_append, List.filter_append]
        have hrowfields :
            addedRows (1 + cs.length) [c]
              = [{ id := (runAdds (emptyStore maxM) cs).next_id,
                   user_id := c.uid, role := c.role, content := c.content,
                   created_at := c.now }] := by
          rw [hnid]; rfl
        rw [hrowfields]
        by_cases hv : v = c.uid
        · subst hv
          rw [add_message, msgsOf_trim_same]
          have hmax2 : (insertMessage (runAdds (emptyStore maxM) cs) c.now
              c.uid c.role c.content).max_messages = maxM := hmax
          rw [hmax2,
            trimList_eq_takeLast maxM
              (msgsOf_pairwise
                (StoreWF_insert hwf c.now c.uid c.role c.content) c.uid),
            msgsOf_insert_same, hmsgs c.uid, takeLast_append_singleton]
          congr 1
          rw [List.filter_cons]
          simp
        · rw [add_message, msgsOf_trim_other _ hv,
            msgsOf_insert_other _ _ _ _ hv, hmsgs v]
          congr 1
          rw [List.filter_cons]
          simp [Ne.symm hv]

theorem is_banned_after_ban (s : Store) (t : Timestamp) (uid : Int) :
    is_banned (ban_user s t uid) uid = true := by
  rw [is_banned, ban_user]
  by_cases h : (s.banned.any fun b => decide (b.user_id = uid)) = true
  · rw [if_pos h]; exact h
  · rw [if_neg h]; simp

theorem ban_after_ban (s : Store) (t₁ t₂ : Timestamp) (uid : Int) :
    ban_user (ban_user s t₁ uid) t₂ uid = ban_user s t₁ uid := by
  have h := is_banned_after_ban s t₁ uid
  rw [is_banned] at h
  conv_lhs => rw [ban_user]
  rw [if_pos h]

theorem is_banned_after_unban (s : Store) (uid : Int) :
    is_banned (unban_user s uid) uid = false := by
  rw [is_banned, unban_user]
  rw [List.any_eq_false]
  intro b hb
  rw [List.mem_filter] at hb
  simpa using hb.2

theorem unban_after_unban (s : Store) (uid : Int) :
    unban_user (unban_user s uid) uid = unban_user s uid := by
  cases s
  simp [unban_user, List.filter_filter]

theorem unban_not_banned (s : Store) (uid : Int)
    (h : is_banned s uid = false) : unban_user s uid = s := by
  rw [is_banned, List.any_eq_false] at h
  have hfe : (s.banned.filter fun b => decide ¬b.user_id = uid) = s.banned :=
    List.filter_eq_self.mpr fun b hb => by simpa using h b hb
  rw [unban_user, hfe]

theorem remove_admin_after_remove_admin (s : Store) (uid : Int) :
    remove_notification_admin (remove_notification_admin s uid) uid
      = remove_notification_admin s uid := by
  cases s
  simp [remove_notification_admin, List.filter_filter]

theorem remove_admin_not_member (s : Store) (uid : Int)
    (h : (s.admins.any fun a => a.user_id = uid) = false) :
    remove_notification_admin s uid = s := by
  rw [List.any_eq_false] at h
  have hfe : (s.admins.filter fun a => decide ¬a.user_id = uid) = s.admins :=
    List.filter_eq_self.mpr fun a ha => by simpa using h a ha
  rw [remove_notification_admin, hfe]

/-- C1: the spec claims `add_message` for a `user_id` with no `users` row fails
with a `ConstraintViolation` and inserts nothing, the store enforcing
referential integrity.  As executed the code does not enforce it: `init()`
never enables `PRAGMA foreign_keys`, so on a store with no users at all,
`add_message(999, 'user', 'hi')` succeeds and the row is inserted and visible
in `get_message_count` and `get_history`. -/
theorem add_message_ignores_missing_user_row :
    (emptyStore 20).users = []
    ∧ get_message_count
        (add_message (emptyStore 20) ⟨0, 0⟩ 999 Role.user "hi") 999 = 1
    ∧ get_history (add_message (emptyStore 20) ⟨0, 0⟩ 999 Role.user "hi") 999
        = [(Role.user, "hi")] := by
  decide

/-- C2: window bound with newest retained — starting from an empty store, after
any finite sequence of completed `add_message` calls and for every user, the
retained rows of that user are exactly the `max_messages` most recently
inserted rows for that user (the ones with the highest ids, ties impossible
since ids are unique and assigned in insertion order), and in particular
`get_message_count(user) ≤ max_messages` after every call (the sequence of
calls is universally quantified, so the bound holds after every prefix). -/
theorem window_bound_newest_retained (maxM : Nat) (calls : List AddCall)
    (u : Int) :
    msgsOf (runAdds (emptyStore maxM) calls) u
      = takeLast maxM ((addedRows 1 calls).filter fun m => m.user_id = u)
    ∧ get_message_count (runAdds (emptyStore maxM) calls) u ≤ maxM := by
  obtain ⟨-, -, -, hmsgs⟩ := runAdds_window maxM calls
  refine ⟨hmsgs u, ?_⟩
  rw [get_message_count, hmsgs u, takeLast_length]
  omega

/-- C3 counterexample: the claim says an absent or *empty* incoming username
never erases a recorded one, but `COALESCE(excluded.username, users.username)`
only guards against SQL `NULL`: after `upsert_user(42, "alice")`,
`upsert_user(42, "")` overwrites the stored username with the empty string. -/
theorem upsert_empty_username_overwrites :
    ((upsert_user (upsert_user (emptyStore 20) ⟨0, 0⟩ 42 (some "alice")) ⟨0, 1⟩
        42 (some "")).users.map fun u => u.username) = [some ""]
    ∧ some "" ≠ some "alice" := by
  decide

/-- C3 (amended): for a user already present in the store, `upsert_user` with
an absent (`None`) username updates `last_seen` and leaves every other field,
in particular the stored username, unchanged; an *empty* username, however,
overwrites.  In particular `upsert_user(42, "alice")` then
`upsert_user(42, None)` leaves the stored username `"alice"`. -/
theorem upsert_none_preserves_username (s : Store) (now : Timestamp)
    (uid : Int) (h : (s.users.any fun u => u.user_id = uid) = true) :
    (upsert_user s now uid none).users
      = s.users.map fun u =>
          if u.user_id = uid then { u with last_seen := now } else u := by
  rw [upsert_user, if_pos h]

/-- Witness for the amended C3 theorem at the claim's own example. -/
theorem upsert_none_preserves_username_witness :
    ((upsert_user (emptyStore 20) ⟨0, 0⟩ 42 (some "alice")).users.any
        fun u => u.user_id = 42) = true
    ∧ (upsert_user (upsert_user (emptyStore 20) ⟨0, 0⟩ 42 (some "alice"))
          ⟨0, 1⟩ 42 none).users
        = (upsert_user (emptyStore 20) ⟨0, 0⟩ 42 (some "alice")).users.map
            fun u => if u.user_id = 42 then { u with last_seen := ⟨0, 1⟩ }
              else u :=
  ⟨by decide, upsert_none_preserves_username _ _ _ (by decide)⟩

/-- C5: ban and notification-admin membership is idempotent and removal of a
non-member is a silent no-op: banning twice leaves the user banned and the
second ban changes nothing; after `unban_user` the user is not banned;
unbanning again (or unbanning a non-banned user, or removing a non-member
notification admin) succeeds and leaves the state unchanged. -/
theorem ban_admin_membership_idempotent (s : Store) (t₁ t₂ : Timestamp)
    (uid : Int) :
    is_banned (ban_user (ban_user s t₁ uid) t₂ uid) uid = true
    ∧ ban_user (ban_user s t₁ uid) t₂ uid = ban_user s t₁ uid
    ∧ is_banned (unban_user s uid) uid = false
    ∧ unban_user (unban_user s uid) uid = unban_user s uid
    ∧ (is_banned s uid = false → unban_user s uid = s)
    ∧ remove_notification_admin (remove_notification_admin s uid) uid
        = remove_notification_admin s uid
    ∧ ((s.admins.any fun a => a.user_id = uid) = false →
        remove_notification_admin s uid = s) :=
  ⟨is_banned_after_ban _ t₂ uid, ban_after_ban s t₁ t₂ uid,
   is_banned_after_unban s uid, unban_after_unban s uid,
   unban_not_banned s uid, remove_admin_after_remove_admin s uid,
   remove_admin_not_member s uid⟩

/-- Witness for C5 at a concrete store. -/
theorem ban_admin_membership_idempotent_witness :
    is_banned (ban_user (ban_user (emptyStore 20) ⟨0, 0⟩ 7) ⟨0, 1⟩ 7) 7 = true
    ∧ is_banned (unban_user (emptyStore 20) 7) 7 = false
    ∧ (is_banned (emptyStore 20) 7 = false
        → unban_user (emptyStore 20) 7 = emptyStore 20)
    ∧ is_banned (emptyStore 20) 7 = false :=
  ⟨(ban_admin_membership_idempotent (emptyStore 20) ⟨0, 0⟩ ⟨0, 1⟩ 7).1,
   (ban_admin_membership_idempotent (emptyStore 20) ⟨0, 0⟩ ⟨0, 1⟩ 7).2.2.1,
   (ban_admin_membership_idempotent (emptyStore 20) ⟨0, 0⟩ ⟨0, 1⟩ 7).2.2.2.2.1,
   by decide⟩

/-- C8: `clear` deletes only the user's messages — afterwards the user's
message count is 0 while the `users`, `banned_users` and `notification_admins`
tables are untouched, and the user still appears in `get_all_users`. -/
theorem clear_only_messages (s : Store) (uid : Int) :
    get_message_count (clear s uid) uid = 0
    ∧ (clear s uid).users = s.users
    ∧ (clear s uid).banned = s.banned
    ∧ (clear s uid).admins = s.admins
    ∧ ((get_all_users (clear s uid)).map fun u => u.user_id)
        = (get_all_users s).map fun u => u.user_id := by
  refine ⟨?_, rfl, rfl, rfl, ?_⟩
  · rw [get_message_count, msgsOf_clear_same]; rfl
  · rw [get_all_users, get_all_users, List.map_map, List.map_map]
    rfl

/-- C10: per-user isolation of mutations — `add_message` (including its trim
step) and `clear` for user `u` leave the retained messages of any other user
`v` unchanged. -/
theorem mutation_isolation (s : Store) (now : Timestamp) {u v : Int}
    (r : Role) (c : String) (h : u ≠ v) :
    msgsOf (add_message s now u r c) v = msgsOf s v
    ∧ msgsOf (clear s u) v = msgsOf s v := by
  refine ⟨?_, msgsOf_clear_other s (Ne.symm h)⟩
  rw [add_message, msgsOf_trim_other _ (Ne.symm h),
    msgsOf_insert_other _ _ _ _ (Ne.symm h)]

/-- Witness for C10 at concrete users 1 and 2. -/
theorem mutation_isolation_witness :
    (1 : Int) ≠ 2
    ∧ msgsOf (add_message (emptyStore 20) ⟨0, 0⟩ 1 Role.user "x") 2
        = msgsOf (emptyStore 20) 2
    ∧ msgsOf (clear (emptyStore 20) 1) 2 = msgsOf (emptyStore 20) 2 :=
  ⟨by decide,
   (mutation_isolation (emptyStore 20) ⟨0, 0⟩ Role.user "x" (by decide)).1,
   (mutation_isolation (emptyStore 20) ⟨0, 0⟩ Role.user "x" (by decide)).2⟩

theorem applyOp_inv {maxM : Nat} {s : Store} (op : Op)
    (hwf : StoreWF s) (hmax : s.max_messages = maxM)
    (hcnt : ∀ v, (msgsOf s v).length ≤ maxM) :
    StoreWF (applyOp s op) ∧ (applyOp s op).max_messages = maxM
      ∧ ∀ v, (msgsOf (applyOp s op) v).length ≤ maxM := by
  cases op with
  | upsert now uid un =>
      refine ⟨?_, ?_, ?_⟩
      · rw [applyOp, upsert_user]; split <;> exact hwf
      · rw [applyOp, upsert_user]; split <;> exact hmax
      · intro v; rw [applyOp, upsert_user]; split <;> exact hcnt v
  | add now uid r c =>
      refine ⟨StoreWF_add hwf now uid r c, ?_, ?_⟩
      · rw [applyOp, add_message_max]; exact hmax
      · intro v
        by_cases hv : v = uid
        · subst hv
          rw [applyOp, add_message, msgsOf_trim_same,
            trimList_eq_takeLast _
              (msgsOf_pairwise (StoreWF_insert hwf now v r c) v),
            takeLast_length]
          have hm2 : (insertMessage s now v r c).max_messages = maxM := hmax
          rw [hm2]
          omega
        · rw [applyOp, add_message, msgsOf_trim_other _ hv,
            msgsOf_insert_other _ _ _ _ hv]
          exact hcnt v
  | clearAll uid =>
      refine ⟨StoreWF_clear hwf uid, hmax, ?_⟩
      intro v
      by_cases hv : v = uid
      · subst hv; rw [applyOp, msgsOf_clear_same]; simp
      · rw [applyOp, msgsOf_clear_other _ hv]; exact hcnt v
  | ban now uid =>
      refine ⟨?_, ?_, ?_⟩
      · rw [applyOp, ban_user]; split <;> exact hwf
      · rw [applyOp, ban_user]; split <;> exact hmax
      · intro v; rw [applyOp, ban_user]; split <;> exact hcnt v
  | unban uid => exact ⟨hwf, hmax, hcnt⟩
  | addAdmin now uid =>
      refine ⟨?_, ?_, ?_⟩
      · rw [applyOp, add_notification_admin]; split <;> exact hwf
      · rw [applyOp, add_notification_admin]; split <;> exact hmax
      · intro v; rw [applyOp, add_notification_admin]; split <;> exact hcnt v
  | removeAdmin uid => exact ⟨hwf, hmax, hcnt⟩

theorem runOps_inv (maxM : Nat) (ops : List Op) :
    StoreWF (runOps (emptyStore maxM) ops)
    ∧ (runOps (emptyStore maxM) ops).max_messages = maxM
    ∧ ∀ v, (msgsOf (runOps (emptyStore maxM) ops) v).length ≤ maxM := by
  have hstep : ∀ (l : List Op) (s : Store),
      (StoreWF s ∧ s.max_messages = maxM ∧
        ∀ v, (msgsOf s v).length ≤ maxM) →
      StoreWF (runOps s l) ∧ (runOps s l).max_messages = maxM ∧
        ∀ v, (msgsOf (runOps s l) v).length ≤ maxM := by
    intro l
    induction l with
    | nil => intro s h; exact h
    | cons op rest ih =>
        intro s h
        exact ih (applyOp s op) (applyOp_inv op h.1 h.2.1 h.2.2)
  exact hstep ops (emptyStore maxM)
    ⟨StoreWF_empty maxM, rfl, fun v => by simp [emptyStore, msgsOf]⟩

/-- C4: history shape and order — over every reachable store state (any trace
of store operations from an empty store), `get_history` returns exactly the
retained messages of the user as `(role, content)` pairs (no id/timestamp
fields), the underlying rows are in strictly ascending id (creation) order,
and the length never exceeds `max_messages`; with `max_messages = 3` and five
inserts `user:a, assistant:b, user:c, assistant:d, user:e` the history is
`[(user, c), (assistant, d), (user, e)]`. -/
theorem history_shape_and_order :
    (∀ (maxM : Nat) (ops : List Op) (u : Int),
      get_history (runOps (emptyStore maxM) ops) u
        = (msgsOf (runOps (emptyStore maxM) ops) u).map
            (fun m => (m.role, m.content))
      ∧ (msgsOf (runOps (emptyStore maxM) ops) u).Pairwise
          (fun a b => a.id < b.id)
      ∧ (get_history (runOps (emptyStore maxM) ops) u).length ≤ maxM)
    ∧ get_history (runOps (emptyStore 3)
        [Op.add ⟨0, 0⟩ 1 Role.user "a", Op.add ⟨0, 1⟩ 1 Role.assistant "b",
         Op.add ⟨0, 2⟩ 1 Role.user "c", Op.add ⟨0, 3⟩ 1 Role.assistant "d",
         Op.add ⟨0, 4⟩ 1 Role.user "e"]) 1
      = [(Role.user, "c"), (Role.assistant, "d"), (Role.user, "e")] := by
  constructor
  · intro maxM ops u
    obtain ⟨hwf, hmax, hcnt⟩ := runOps_inv maxM ops
    refine ⟨rfl, msgsOf_pairwise hwf u, ?_⟩
    rw [get_history, List.length_map]
    exact hcnt u
  · decide

/-- C6: `get_stats` counts — `total_users` is the number of `users` rows,
`total_messages` the number of currently retained message rows,
`user_messages` the retained rows with role `user`, and, provided no stored
timestamp lies in the future of the store clock, `active_today` is the number
of distinct `user_id`s with at least one message created on the current
calendar day; the two-user scenario (3+3 and 2+2 retained messages) yields
`total_users = 2, total_messages = 10, user_messages = 5`. -/
theorem stats_counts (s : Store) (today : Nat)
    (hclock : ∀ m ∈ s.messages, m.created_at.day ≤ today) :
    ((get_stats s today).total_users = s.users.length
    ∧ (get_stats s today).total_messages = s.messages.length
    ∧ (get_stats s today).user_messages
        = (s.messages.filter fun m => m.role = Role.user).length
    ∧ (get_stats s today).active_today
        = ((s.messages.filter fun m => m.created_at.day = today).map
            fun m => m.user_id).dedup.length)
    ∧ get_stats (runOps (emptyStore 20)
        [Op.upsert ⟨0, 0⟩ 1 (some "a"), Op.upsert ⟨0, 0⟩ 2 none,
         Op.add ⟨0, 1⟩ 1 Role.user "q1", Op.add ⟨0, 1⟩ 1 Role.assistant "r1",
         Op.add ⟨0, 2⟩ 1 Role.user "q2", Op.add ⟨0, 2⟩ 1 Role.assistant "r2",
         Op.add ⟨0, 3⟩ 1 Role.user "q3", Op.add ⟨0, 3⟩ 1 Role.assistant "r3",
         Op.add ⟨0, 4⟩ 2 Role.user "s1", Op.add ⟨0, 4⟩ 2 Role.assistant "t1",
         Op.add ⟨0, 5⟩ 2 Role.user "s2", Op.add ⟨0, 5⟩ 2 Role.assistant "t2"])
        0
      = { total_users := 2, total_messages := 10, user_messages := 5,
          active_today := 2 } := by
  constructor
  · refine ⟨rfl, rfl, rfl, ?_⟩
    have hf : (s.messages.filter fun m => today ≤ m.created_at.day)
        = s.messages.filter fun m => m.created_at.day = today :=
      List.filter_congr fun m hm => by
        have := hclock m hm
        simp only [decide_eq_decide]
        omega
    show ((s.messages.filter fun m =>
        today ≤ m.created_at.day).map fun m => m.user_id).dedup.length = _
    rw [hf]
  · decide

/-- Witness for C6: the clock hypothesis holds at the scenario store. -/
theorem stats_counts_witness :
    (∀ m ∈ (runAdds (emptyStore 2)
        [⟨⟨0, 0⟩, 1, Role.user, "a"⟩, ⟨⟨0, 1⟩, 1, Role.assistant, "b"⟩]).messages,
      m.created_at.day ≤ 0)
    ∧ (get_stats (runAdds (emptyStore 2)
        [⟨⟨0, 0⟩, 1, Role.user, "a"⟩, ⟨⟨0, 1⟩, 1, Role.assistant, "b"⟩]) 0).total_messages
      = (runAdds (emptyStore 2)
        [⟨⟨0, 0⟩, 1, Role.user, "a"⟩, ⟨⟨0, 1⟩, 1, Role.assistant, "b"⟩]).messages.length :=
  ⟨by decide, ((stats_counts _ 0 (by decide)).1).2.1⟩

/-- C7: export completeness and consistency — `export_data` is built from a
deterministic line list: a header, one count line, exactly one line per
`users` row (the `get_all_users` rows, which are a permutation of the `users`
table, ordered by `last_seen` descending), then the aggregate section showing
exactly the `get_stats` figures of the same state.  Determinism is inherent:
`export_data` is a pure function of the store state. -/
theorem export_report (s : Store) (today : Nat) :
    exportLines s today
      = ["=== Экспорт данных бота 17/17 ===\n",
          "Всего пользователей: " ++ toString (get_stats s today).total_users
            ++ "\n"]
        ++ (get_all_users s).map exportUserLine
        ++ ["\n--- Общая статистика ---",
            "Сообщений всего: "
              ++ toString (get_stats s today).total_messages,
            "От пользователей: "
              ++ toString (get_stats s today).user_messages,
            "Активных сегодня: "
              ++ toString (get_stats s today).active_today]
    ∧ ((get_all_users s).map fun u => u.user_id).Perm
        (s.users.map fun u => u.user_id)
    ∧ (get_all_users s).length = (get_stats s today).total_users
    ∧ (get_all_users s).Pairwise
        (fun a b => Timestamp.le b.last_seen a.last_seen)
    ∧ export_data s today = String.intercalate "\n" (exportLines s today) := by
  have hlen : (get_all_users s).length = s.users.length := by
    rw [get_all_users, List.length_map]
    exact (List.perm_insertionSort lastSeenGe s.users).length_eq
  refine ⟨?_, ?_, ?_, ?_, rfl⟩
  · rw [exportLines, hlen]; rfl
  · rw [get_all_users, List.map_map]
    exact (List.perm_insertionSort lastSeenGe s.users).map fun u => u.user_id
  · rw [hlen]; rfl
  · rw [get_all_users, List.pairwise_map]
    exact List.sorted_insertionSort lastSeenGe s.users

theorem insCount_append (xs ys : List Stmt) :
    insCount (xs ++ ys) = insCount xs + insCount ys := by
  induction xs with
  | nil => simp [insCount]
  | cons st rest ih =>
      cases st
      · simp [insCount, ih]; omega
      · simp [insCount, ih]

theorem trimCount_append (xs ys : List Stmt) :
    trimCount (xs ++ ys) = trimCount xs + trimCount ys := by
  induction xs with
  | nil => simp [trimCount]
  | cons st rest ih =>
      cases st
      · simp [trimCount, ih]
      · simp [trimCount, ih]; omega

theorem insRows_append (nid : Nat) (xs ys : List Stmt) :
    insRows nid (xs ++ ys)
      = insRows nid xs ++ insRows (nid + insCount xs) ys := by
  induction xs generalizing nid with
  | nil => simp [insRows, insCount]
  | cons st rest ih =>
      cases st with
      | ins now uid r c =>
          have harith : nid + (insCount rest + 1) = nid + 1 + insCount rest := by
            omega
          simp only [List.cons_append, insRows, insCount, List.append_eq, ih,
            harith, List.cons_append]
      | trim w =>
          simp only [List.cons_append, insRows, insCount, List.append_eq, ih]

theorem valid_ends_with_trim {u : Int} {σ : List Stmt}
    (hval : ValidInterleaving u σ) (hn : 1 ≤ insCount σ) :
    ∃ σ₂, σ = σ₂ ++ [Stmt.trim u] := by
  obtain ⟨hfu, hbal, hpre⟩ := hval
  rcases List.eq_nil_or_concat σ with hnil | ⟨σ₂, st, hcat⟩
  · subst hnil; simp [insCount] at hn
  · rw [List.concat_eq_append] at hcat
    subst hcat
    cases st with
    | ins now uid r c =>
        exfalso
        have h1 := hpre σ₂.length (by rw [List.length_append]; omega)
        rw [List.take_left] at h1
        rw [insCount_append, trimCount_append] at hbal
        simp [insCount, trimCount] at hbal
        omega
    | trim uid =>
        have hu : uid = u := by
          have := hfu (Stmt.trim uid) (by simp)
          simpa [Stmt.uid] using this
        subst hu
        exact ⟨σ₂, rfl⟩

theorem runStmts_cons (s : Store) (st : Stmt) (rest : List Stmt) :
    runStmts s (st :: rest) = runStmts (execStmt s st) rest := rfl

theorem runStmts_inv (u : Int) (σ : List Stmt) :
    ∀ s : Store, StoreWF s → (∀ st ∈ σ, st.uid = u) →
    StoreWF (runStmts s σ)
    ∧ (runStmts s σ).max_messages = s.max_messages
    ∧ (runStmts s σ).next_id = s.next_id + insCount σ
    ∧ msgsOf (runStmts s σ) u <:+ msgsOf s u ++ insRows s.next_id σ
    ∧ min s.max_messages (msgsOf s u ++ insRows s.next_id σ).length
        ≤ (msgsOf (runStmts s σ) u).length := by
  induction σ with
  | nil =>
      intro s hwf _
      refine ⟨hwf, rfl, by simp [insCount, runStmts], ?_, ?_⟩
      · simp [runStmts, insRows]
      · simp [runStmts, insRows]
  | cons st rest ih =>
      intro s hwf hfu
      have hrest : ∀ x ∈ rest, x.uid = u := fun x hx =>
        hfu x (List.mem_cons_of_mem _ hx)
      cases st with
      | ins now uid r c =>
          have huid : uid = u := by
            have := hfu (Stmt.ins now uid r c) (List.mem_cons_self _ _)
            simpa [Stmt.uid] using this
          subst huid
          have hwf1 := StoreWF_insert hwf now uid r c
          obtain ⟨h1, h2, h3, h4, h5⟩ :=
            ih (insertMessage s now uid r c) hwf1 hrest
          have hfix : msgsOf (insertMessage s now uid r c) uid
              ++ insRows (insertMessage s now uid r c).next_id rest
              = msgsOf s uid
                  ++ insRows s.next_id (Stmt.ins now uid r c :: rest) := by
            rw [msgsOf_insert_same, insRows, List.append_assoc]
            rfl
          have hexec : execStmt s (Stmt.ins now uid r c)
              = insertMessage s now uid r c := rfl
          rw [runStmts_cons, hexec]
          refine ⟨h1, ?_, ?_, ?_, ?_⟩
          · rw [h2]; rfl
          · rw [h3]
            show s.next_id + 1 + insCount rest
              = s.next_id + insCount (Stmt.ins now uid r c :: rest)
            rw [insCount]
            omega
          · rw [← hfix]
            exact h4
          · rw [← hfix]
            have hmaxeq : (insertMessage s now uid r c).max_messages
                = s.max_messages := rfl
            rw [hmaxeq] at h5
            exact h5
      | trim uid =>
          have huid : uid = u := by
            have := hfu (Stmt.trim uid) (List.mem_cons_self _ _)
            simpa [Stmt.uid] using this
          subst huid
          have hwf1 := StoreWF_trim hwf uid
          obtain ⟨h1, h2, h3, h4, h5⟩ := ih (trimUser s uid) hwf1 hrest
          have hmsgs1 : msgsOf (trimUser s uid) uid
              = takeLast s.max_messages (msgsOf s uid) := by
            rw [msgsOf_trim_same,
              trimList_eq_takeLast _ (msgsOf_pairwise hwf uid)]
          have hsuf0 : msgsOf (trimUser s uid) uid <:+ msgsOf s uid := by
            rw [hmsgs1]
            exact takeLast_suffix _ _
          have hexec : execStmt s (Stmt.trim uid) = trimUser s uid := rfl
          have hinsid : (trimUser s uid).next_id = s.next_id := rfl
          have hinsrows : insRows s.next_id (Stmt.trim uid :: rest)
              = insRows s.next_id rest := rfl
          rw [runStmts_cons, hexec]
          refine ⟨h1, ?_, ?_, ?_, ?_⟩
          · rw [h2]; rfl
          · rw [h3, hinsid]
            show s.next_id + insCount rest
              = s.next_id + insCount (Stmt.trim uid :: rest)
            rw [insCount]
          · rw [hinsrows]
            rw [hinsid] at h4
            exact h4.trans
              (suffix_append_right hsuf0 (insRows s.next_id rest))
          · rw [hinsrows]
            rw [hinsid] at h5
            have hmaxeq : (trimUser s uid).max_messages = s.max_messages := rfl
            rw [hmaxeq, hmsgs1] at h5
            rw [List.length_append] at h5 ⊢
            rw [takeLast_length] at h5
            omega

/-- C9: concurrent trim atomicity — each SQL statement executes atomically on
the single shared connection, so a concurrent batch of `add_message` calls for
one user is an interleaving of the per-call INSERT/DELETE statement pairs.
For every such valid interleaving (each call's INSERT preceding its DELETE, at
least one call), the final retained rows of the user are exactly the
`max_messages` highest-id rows among the pre-existing rows and all rows the
batch inserted: no interleaving can leave more than `max_messages` rows, and
none deletes an in-window row another in-flight call just inserted — with
`max_messages = 20` and 100 calls, exactly the 20 highest-id inserted rows
remain. -/
theorem concurrent_trim_atomic (s₀ : Store) (u : Int) (σ : List Stmt)
    (hwf : StoreWF s₀) (hval : ValidInterleaving u σ) (hn : 1 ≤ insCount σ) :
    msgsOf (runStmts s₀ σ) u
      = takeLast s₀.max_messages (msgsOf s₀ u ++ insRows s₀.next_id σ)
    ∧ get_message_count (runStmts s₀ σ) u ≤ s₀.max_messages := by
  obtain ⟨σ₂, rfl⟩ := valid_ends_with_trim hval hn
  have hfu : ∀ st ∈ σ₂, st.uid = u := fun st hst =>
    hval.1 st (List.mem_append_left _ hst)
  obtain ⟨h1, h2, h3, h4, h5⟩ := runStmts_inv u σ₂ s₀ hwf hfu
  have hrun : runStmts s₀ (σ₂ ++ [Stmt.trim u])
      = trimUser (runStmts s₀ σ₂) u := by
    rw [runStmts, List.foldl_append]
    rfl
  have hins : insRows s₀.next_id (σ₂ ++ [Stmt.trim u])
      = insRows s₀.next_id σ₂ := by
    rw [insRows_append]
    simp [insRows]
  have hmain : msgsOf (runStmts s₀ (σ₂ ++ [Stmt.trim u])) u
      = takeLast s₀.max_messages (msgsOf s₀ u ++ insRows s₀.next_id σ₂) := by
    rw [hrun, msgsOf_trim_same,
      trimList_eq_takeLast _ (msgsOf_pairwise h1 u), h2]
    exact takeLast_eq_of_suffix _ h4 h5
  refine ⟨by rw [hins, hmain], ?_⟩
  rw [get_message_count, hmain, takeLast_length]
  omega

/-- Witness for C9: a concrete interleaving of three `add_message` calls for
user 1 with window size 2, whose two final retained rows are the two
highest-id inserted rows. -/
theorem concurrent_trim_atomic_witness :
    (StoreWF (emptyStore 2)
      ∧ ValidInterleaving 1
          [Stmt.ins ⟨0, 0⟩ 1 Role.user "a", Stmt.ins ⟨0, 1⟩ 1 Role.user "b",
           Stmt.trim 1, Stmt.ins ⟨0, 2⟩ 1 Role.user "c", Stmt.trim 1,
           Stmt.trim 1]
      ∧ 1 ≤ insCount
          [Stmt.ins ⟨0, 0⟩ 1 Role.user "a", Stmt.ins ⟨0, 1⟩ 1 Role.user "b",
           Stmt.trim 1, Stmt.ins ⟨0, 2⟩ 1 Role.user "c", Stmt.trim 1,
           Stmt.trim 1])
    ∧ msgsOf (runStmts (emptyStore 2)
          [Stmt.ins ⟨0, 0⟩ 1 Role.user "a", Stmt.ins ⟨0, 1⟩ 1 Role.user "b",
           Stmt.trim 1, Stmt.ins ⟨0, 2⟩ 1 Role.user "c", Stmt.trim 1,
           Stmt.trim 1]) 1
        = takeLast (emptyStore 2).max_messages (msgsOf (emptyStore 2) 1
            ++ insRows (emptyStore 2).next_id
              [Stmt.ins ⟨0, 0⟩ 1 Role.user "a", Stmt.ins ⟨0, 1⟩ 1 Role.user "b",
               Stmt.trim 1, Stmt.ins ⟨0, 2⟩ 1 Role.user "c", Stmt.trim 1,
               Stmt.trim 1]) :=
  ⟨⟨by decide, by decide, by decide⟩,
   (concurrent_trim_atomic (emptyStore 2) 1 _ (by decide) (by decide)
     (by decide)).1⟩

end SQLiteHistory
